import Mathlib

/-!
Shallow embedding of `rust-text-modifier` (`src/main.rs`), an interactive
command-line text-transformation tool: an operation registry (a closed
enumeration of transformation kinds with textual parsing and display), a
transformation executor, a CSV-to-table renderer, and a producer/consumer
command pipeline connected by a FIFO channel.

Pure Rust functions become Lean functions; the file system (for the CSV
path) becomes an explicit `String → Option String` environment; fallible
functions return `Except String`; the concurrent pipeline becomes a
small-step transition relation on an explicit state.

External collaborator crates (`csv`, `prettytable`, `convert_case`, `slug`,
and Unicode case folding from the Rust standard library) are not part of
the source; definitions for them are modelled from the specification and
say so in their doc comments.
-/

namespace TextModifier

/-- The closed enumeration of operation kinds, from `enum Operation` in
`src/main.rs` (declaration order preserved). -/
inductive Operation where
  | CamelCase
  | Csv
  | LowerCase
  | NoSpaces
  | Slugify
  | SnakeCase
  | UpperCase
deriving DecidableEq, Repr

/-- Modelled from the spec: Rust `str::to_lowercase` (full Unicode case
folding, a standard-library collaborator outside the source), abstracted
as per-character lower-casing. -/
def strToLowercase (s : String) : String :=
  ⟨s.data.map Char.toLower⟩

/-- Embedding of `Operation::from_str`: lower-case the name and match it
against the canonical name table; unmatched input fails with the literal
offending name embedded in the error message. -/
def Operation.from_str (s : String) : Except String Operation :=
  match strToLowercase s with
  | "camelcase" => .ok .CamelCase
  | "csv" => .ok .Csv
  | "lowercase" => .ok .LowerCase
  | "no-spaces" => .ok .NoSpaces
  | "slugify" => .ok .Slugify
  | "snakecase" => .ok .SnakeCase
  | "uppercase" => .ok .UpperCase
  | _ => .error ("Invalid operation: " ++ s)

/-- Embedding of `Operation::to_str`: the canonical lowercase name of each
operation kind. -/
def Operation.to_str : Operation → String
  | .CamelCase => "camelcase"
  | .Csv => "csv"
  | .LowerCase => "lowercase"
  | .NoSpaces => "no-spaces"
  | .Slugify => "slugify"
  | .SnakeCase => "snakecase"
  | .UpperCase => "uppercase"

/-- The canonical name table: the canonical names of all operation kinds in
declaration order (the strings `Operation::from_str` matches against). -/
def canonicalNames : List String :=
  ["camelcase", "csv", "lowercase", "no-spaces", "slugify", "snakecase", "uppercase"]

/-- Modelled from the spec: Rust `str::trim` (a standard-library
collaborator) — the string with leading and trailing whitespace removed. -/
def strTrim (s : String) : String :=
  ⟨((s.data.dropWhile Char.isWhitespace).reverse.dropWhile Char.isWhitespace).reverse⟩

/-- Splitting a character list at every occurrence of a separator
character; the result always has one more piece than there are separators,
so it is never empty. -/
def splitOnChar (sep : Char) : List Char → List (List Char)
  | [] => [[]]
  | c :: cs =>
    if c = sep then [] :: splitOnChar sep cs
    else
      match splitOnChar sep cs with
      | r :: rs => (c :: r) :: rs
      | [] => [[c]]

/-- Maximal runs of characters satisfying `keep`, in order; characters not
satisfying `keep` separate runs and are dropped.  This is the shared
word-splitting engine used to model the collaborator crates (`slug`,
`convert_case`) and Rust `split_whitespace`.  `runsGlue` prepends a kept
character `c` to the runs `r` of the rest `cs` of the list: `c` either
joins the first run of `cs` (when the next character is kept too) or opens
a run of its own. -/
def runsGlue (keep : Char → Bool) (c : Char) (cs : List Char)
    (r : List (List Char)) : List (List Char) :=
  match cs, r with
  | [], _ => [[c]]
  | _ :: _, [] => [[c]]
  | d :: _, r0 :: rs => if keep d then (c :: r0) :: rs else [c] :: r0 :: rs

def runsBy (keep : Char → Bool) : List Char → List (List Char)
  | [] => []
  | c :: cs => if keep c then runsGlue keep c cs (runsBy keep cs) else runsBy keep cs

/-- Modelled from the spec: Rust `str::to_uppercase` (full Unicode case
folding, a standard-library collaborator outside the source), abstracted
as per-character upper-casing. -/
def strToUppercase (s : String) : String :=
  ⟨s.data.map Char.toUpper⟩

/-- Modelled from the spec: the `slug::slugify` collaborator — lowercase,
non-alphanumeric runs collapsed to a single `-` separator, leading and
trailing separators trimmed. -/
def slugify (input : String) : String :=
  ⟨List.intercalate ['-'] ((runsBy Char.isAlphanum input.data).map (·.map Char.toLower))⟩

/-- Capitalization of one word: first character upper-cased, the rest
lower-cased (used by the camel-case model). -/
def capitalizeRun : List Char → List Char
  | [] => []
  | c :: cs => c.toUpper :: cs.map Char.toLower

/-- Modelled from the spec: the `convert_case` collaborator's `Case::Camel`
re-casing — split into words at non-alphanumeric boundaries, first word
lower-cased, later words capitalized, concatenated. -/
def toCamelCase (s : String) : String :=
  match runsBy Char.isAlphanum s.data with
  | [] => ""
  | w :: ws => ⟨w.map Char.toLower ++ (ws.map capitalizeRun).flatten⟩

/-- Modelled from the spec: the `convert_case` collaborator's `Case::Snake`
re-casing — words lower-cased and joined by underscores. -/
def toSnakeCase (s : String) : String :=
  ⟨List.intercalate ['_'] ((runsBy Char.isAlphanum s.data).map (·.map Char.toLower))⟩

/-- Embedding of `process_camel_case`. -/
def process_camel_case (input : String) : Except String String :=
  .ok (toCamelCase input)

/-- Embedding of `process_lower_case`. -/
def process_lower_case (input : String) : Except String String :=
  .ok (strToLowercase input)

/-- Removal of every literal space character: the effect of Rust
`input.replace(" ", "")`, embedded as a character filter. -/
def removeSpaces (input : String) : String :=
  ⟨input.data.filter (fun c => c ≠ ' ')⟩

/-- Embedding of `process_no_spaces`. -/
def process_no_spaces (input : String) : Except String String :=
  .ok (removeSpaces input)

/-- Embedding of `process_slugify`. -/
def process_slugify (input : String) : Except String String :=
  .ok (slugify input)

/-- Embedding of `process_snake_case`. -/
def process_snake_case (input : String) : Except String String :=
  .ok (toSnakeCase input)

/-- Embedding of `process_upper_case`. -/
def process_upper_case (input : String) : Except String String :=
  .ok (strToUppercase input)

/-- Embedding of `struct CsvTable`: headers plus data records, each an
ordered sequence of fields (ragged rows permitted). -/
structure CsvTable where
  headers : List String
  records : List (List String)
deriving DecidableEq, Repr

/-- Modelled from the spec: splitting CSV text into record lines.  Records
are newline-separated; a trailing newline terminates the last record
rather than opening an empty one. -/
def csvLines (text : String) : List String :=
  let ls := (splitOnChar '\n' text.data).map fun l => (⟨l⟩ : String)
  match ls.getLast? with
  | some "" => ls.dropLast
  | _ => ls

/-- Modelled from the spec: one CSV record — comma-separated fields, each
trimmed of surrounding whitespace (`Trim::All`); an empty line is an empty
record with zero fields. -/
def csvRecord (line : String) : List String :=
  if line = "" then [] else (splitOnChar ',' line.data).map fun f => strTrim ⟨f⟩

/-- Modelled from the spec: the `csv` crate collaborator in trimmed,
flexible mode — every record of the text, the first one being the header
row. -/
def parseCsvRows (text : String) : List (List String) :=
  (csvLines text).map csvRecord

/-- Modelled from the spec: the `prettytable` collaborator's layout,
abstracted to its data contract — each table row becomes one output line
whose cells are exactly that row's fields, joined by a separator. -/
def renderRow (cells : List String) : String :=
  ⟨List.intercalate ['|'] (cells.map String.data)⟩

/-- The rendered lines of a table, from `impl fmt::Display for CsvTable`:
the header row first, then one line per data record, in order. -/
def CsvTable.renderLines (t : CsvTable) : List String :=
  renderRow t.headers :: t.records.map renderRow

/-- Embedding of `impl fmt::Display for CsvTable`, with the `prettytable`
line layout modelled from the spec. -/
def CsvTable.render (t : CsvTable) : String :=
  ⟨List.intercalate ['\n'] (t.renderLines.map String.data)⟩

/-- The CSV parse-and-render pipeline of `process_csv` applied to CSV text
(everything after the file has been opened): empty header row and
missing data rows are rejected, otherwise the parsed table is rendered. -/
def renderCsvText (text : String) : Except String String :=
  let rows := parseCsvRows text
  let headers := rows.headD []
  if headers.isEmpty then .error "CSV has no headers"
  else
    let records := rows.tail
    if records.isEmpty then .error "CSV has no data rows"
    else .ok (CsvTable.render ⟨headers, records⟩)

/-- Embedding of `process_csv`: the payload names a file; the file system
is an explicit environment `fs`.  Opening the file may fail; its contents
are then parsed as CSV and rendered. -/
def process_csv (fs : String → Option String) (file_path : String) : Except String String :=
  match fs file_path with
  | none => .error ("Failed to open file: " ++ file_path)
  | some text => renderCsvText text

/-- Embedding of `process_operation`: dispatch on the operation kind.  The
file-system environment is threaded through because the Csv arm reads a
file. -/
def process_operation (fs : String → Option String) (op : Operation) (input : String) :
    Except String String :=
  match op with
  | .CamelCase => process_camel_case input
  | .LowerCase => process_lower_case input
  | .NoSpaces => process_no_spaces input
  | .Slugify => process_slugify input
  | .SnakeCase => process_snake_case input
  | .UpperCase => process_upper_case input
  | .Csv => process_csv fs input

/-- Embedding of `struct Command`: one operation paired with its payload. -/
structure Command where
  operation : Operation
  input : String
deriving DecidableEq, Repr

/-- Embedding of Rust `str::split_whitespace`: the maximal runs of
non-whitespace characters of the line, in order. -/
def split_whitespace (s : String) : List String :=
  (runsBy (fun c => !c.isWhitespace) s.data).map (⟨·⟩)

/-- The outcome of one producer iteration on one input line: nothing (blank
line), a malformed-line report, an unknown-operation report, or a command
enqueued onto the channel. -/
inductive ProducerAction where
  | skip
  | malformed
  | invalidOp (msg : String)
  | enqueue (c : Command)
deriving DecidableEq, Repr

/-- Embedding of one iteration of `input_thread` on an already-read line:
split on whitespace; zero tokens are discarded silently; one token is a
format error; otherwise the first token names the operation and the rest,
rejoined with single spaces, form the payload. -/
def producer_step (line : String) : ProducerAction :=
  let parts := split_whitespace line
  if parts.isEmpty then .skip
  else if parts.length < 2 then .malformed
  else
    match Operation.from_str (strTrim (parts.headD "")) with
    | .ok operation => .enqueue ⟨operation, String.intercalate " " (parts.drop 1)⟩
    | .error e => .invalidOp e

/-- The command (if any) that one input line causes the producer to
enqueue. -/
def enqueuedOf (line : String) : Option Command :=
  match producer_step line with
  | .enqueue c => some c
  | _ => none

/-- The whole-pipeline state: input lines the producer has not yet read,
the channel contents oldest-first (`flume::unbounded`, FIFO: sends append
at the back, receives take from the front), the commands the consumer has
received so far in order, and whether the producer has reached
end-of-stream and dropped its sender. -/
structure PipelineState where
  pending : List String
  chan : List Command
  processed : List Command
  producerDone : Bool
deriving DecidableEq, Repr

/-- Small-step semantics of the producer/consumer pipeline of `main`:
the producer reads its next line and enqueues whatever `producer_step`
yields; at end of input it drops the sender; the consumer receives the
oldest channel element.  Producer and consumer steps interleave
arbitrarily. -/
inductive PStep : PipelineState → PipelineState → Prop where
  | read (line : String) (rest : List String) (chan : List Command)
      (processed : List Command) (d : Bool) :
      PStep ⟨line :: rest, chan, processed, d⟩
        ⟨rest, chan ++ (enqueuedOf line).toList, processed, d⟩
  | finish (chan : List Command) (processed : List Command) :
      PStep ⟨[], chan, processed, false⟩ ⟨[], chan, processed, true⟩
  | recv (pending : List String) (c : Command) (chan : List Command)
      (processed : List Command) (d : Bool) :
      PStep ⟨pending, c :: chan, processed, d⟩ ⟨pending, chan, processed ++ [c], d⟩

/-- Reachability of one pipeline state from another by any interleaving of
producer and consumer steps. -/
def PReaches : PipelineState → PipelineState → Prop :=
  Relation.ReflTransGen PStep

/-- The initial pipeline state on a given input stream. -/
def initState (lines : List String) : PipelineState :=
  ⟨lines, [], [], false⟩

/-- A character list with collapsed whitespace: it neither starts nor ends
with a whitespace character, and no two adjacent characters are both
whitespace (internal whitespace runs have length one). -/
def collapsedSpaces (l : List Char) : Prop :=
  (∀ c ∈ l.head?, c.isWhitespace = false) ∧
  (∀ c ∈ l.getLast?, c.isWhitespace = false) ∧
  l.Chain' (fun a b => a.isWhitespace = false ∨ b.isWhitespace = false)

/-- The commands a list of input lines causes the producer to enqueue, in
order. -/
def commandsOf (lines : List String) : List Command :=
  lines.filterMap enqueuedOf

end TextModifier

namespace TextModifier

theorem intercalate_singleton {α : Type} (s : α) (w : List α) :
    List.intercalate [s] [w] = w := by
  simp [List.intercalate]

theorem intercalate_cons_cons {α : Type} (s : α) (w w2 : List α) (rest : List (List α)) :
    List.intercalate [s] (w :: w2 :: rest) = w ++ s :: List.intercalate [s] (w2 :: rest) := by
  simp [List.intercalate, List.intersperse_cons_cons]

theorem intercalate_cons_ne_nil {α : Type} (s : α) (w : List α) (rest : List (List α))
    (hw : w ≠ []) : List.intercalate [s] (w :: rest) ≠ [] := by
  cases rest with
  | nil => rw [intercalate_singleton]; exact hw
  | cons w2 rest => rw [intercalate_cons_cons]; simp [hw]

theorem runsBy_nil (keep : Char → Bool) : runsBy keep [] = [] := rfl

theorem runsBy_cons_neg (keep : Char → Bool) (c : Char) (cs : List Char)
    (hc : keep c = false) : runsBy keep (c :: cs) = runsBy keep cs := by
  simp [runsBy, hc]

theorem runsBy_cons_pos (keep : Char → Bool) :
    ∀ (cs : List Char) (c : Char), keep c = true →
      runsBy keep (c :: cs) =
        (c :: cs.takeWhile keep) :: runsBy keep (cs.dropWhile keep) := by
  intro cs
  induction cs with
  | nil => intro c hc; simp [runsBy, runsGlue, hc]
  | cons d ds ih =>
    intro c hc
    by_cases hd : keep d = true
    · rw [List.takeWhile_cons_of_pos hd, List.dropWhile_cons_of_pos hd]
      rw [runsBy, if_pos hc, ih d hd]
      simp [runsGlue, hd]
    · have hd2 : keep d = false := Bool.not_eq_true _ |>.mp hd
      rw [List.takeWhile_cons_of_neg (by simp [hd2]), List.dropWhile_cons_of_neg (by simp [hd2])]
      rw [runsBy, if_pos hc]
      cases hrec : runsBy keep (d :: ds) with
      | nil => simp [runsGlue]
      | cons r rs => simp [runsGlue, hd2]

theorem runsBy_dropWhile_subset (keep : Char → Bool) :
    ∀ (cs : List Char), ∀ x ∈ runsBy keep (cs.dropWhile keep), x ∈ runsBy keep cs := by
  intro cs
  induction cs with
  | nil => simp
  | cons d ds ih =>
    by_cases hd : keep d = true
    · rw [List.dropWhile_cons_of_pos hd, runsBy_cons_pos keep ds d hd]
      intro x hx
      exact List.mem_cons_of_mem _ hx
    · have hd2 : keep d = false := Bool.not_eq_true _ |>.mp hd
      rw [List.dropWhile_cons_of_neg (by simp [hd2]), runsBy_cons_neg keep d ds hd2]
      exact fun x hx => hx

theorem runsBy_mem (keep : Char → Bool) (l : List Char) :
    ∀ r ∈ runsBy keep l, r ≠ [] ∧ ∀ c ∈ r, keep c = true := by
  induction l with
  | nil => intro r hr; simp [runsBy] at hr
  | cons c cs ih =>
    intro r hr
    by_cases hc : keep c = true
    · rw [runsBy_cons_pos keep cs c hc] at hr
      rcases List.mem_cons.mp hr with h | h
      · subst h
        refine ⟨by simp, ?_⟩
        intro x hx
        rcases List.mem_cons.mp hx with h | h
        · subst h; exact hc
        · exact List.mem_takeWhile_imp h
      · exact ih r (runsBy_dropWhile_subset keep cs r h)
    · have hc2 : keep c = false := Bool.not_eq_true _ |>.mp hc
      rw [runsBy_cons_neg keep c cs hc2] at hr
      exact ih r hr

theorem runsBy_all_keep (keep : Char → Bool) (l : List Char) (hne : l ≠ [])
    (h : ∀ c ∈ l, keep c = true) : runsBy keep l = [l] := by
  cases l with
  | nil => exact absurd rfl hne
  | cons c cs =>
    rw [runsBy_cons_pos keep cs c (h c (List.mem_cons_self c cs))]
    rw [List.takeWhile_eq_self_iff.mpr fun x hx => h x (List.mem_cons_of_mem c hx)]
    rw [List.dropWhile_eq_nil_iff.mpr fun x hx => h x (List.mem_cons_of_mem c hx)]
    simp [runsBy]

theorem takeWhile_all_append (p : Char → Bool) (xs : List Char) (y : Char) (t : List Char)
    (hxs : ∀ c ∈ xs, p c = true) (hy : p y = false) :
    List.takeWhile p (xs ++ y :: t) = xs := by
  induction xs with
  | nil => simp [List.takeWhile, hy]
  | cons x xs ih =>
    rw [List.cons_append, List.takeWhile_cons_of_pos (hxs x (List.mem_cons_self x xs))]
    rw [ih fun c hc => hxs c (List.mem_cons_of_mem x hc)]

theorem dropWhile_all_append (p : Char → Bool) (xs : List Char) (y : Char) (t : List Char)
    (hxs : ∀ c ∈ xs, p c = true) (hy : p y = false) :
    List.dropWhile p (xs ++ y :: t) = y :: t := by
  induction xs with
  | nil => simp [List.dropWhile, hy]
  | cons x xs ih =>
    rw [List.cons_append, List.dropWhile_cons_of_pos (hxs x (List.mem_cons_self x xs))]
    exact ih fun c hc => hxs c (List.mem_cons_of_mem x hc)

theorem runsBy_sep_cons (keep : Char → Bool) (sep : Char) (t : List Char)
    (hsep : keep sep = false) : runsBy keep (sep :: t) = runsBy keep t :=
  runsBy_cons_neg keep sep t hsep

theorem runsBy_word_sep (keep : Char → Bool) (sep : Char) (w t : List Char)
    (hw : w ≠ []) (hkeep : ∀ c ∈ w, keep c = true) (hsep : keep sep = false) :
    runsBy keep (w ++ sep :: t) = w :: runsBy keep t := by
  cases w with
  | nil => exact absurd rfl hw
  | cons c cs =>
    rw [List.cons_append, runsBy_cons_pos keep (cs ++ sep :: t) c
      (hkeep c (List.mem_cons_self c cs))]
    rw [takeWhile_all_append keep cs sep t
      (fun x hx => hkeep x (List.mem_cons_of_mem c hx)) hsep]
    rw [dropWhile_all_append keep cs sep t
      (fun x hx => hkeep x (List.mem_cons_of_mem c hx)) hsep]
    rw [runsBy_sep_cons keep sep t hsep]

theorem runsBy_intercalate (keep : Char → Bool) (sep : Char) (ws : List (List Char))
    (hsep : keep sep = false)
    (h : ∀ w ∈ ws, w ≠ [] ∧ ∀ c ∈ w, keep c = true) :
    runsBy keep (List.intercalate [sep] ws) = ws := by
  induction ws with
  | nil => rw [List.intercalate]; simp [runsBy]
  | cons w rest ih =>
    cases rest with
    | nil =>
      rw [intercalate_singleton]
      exact runsBy_all_keep keep w (h w (by simp)).1 (h w (by simp)).2
    | cons w2 rest2 =>
      rw [intercalate_cons_cons]
      rw [runsBy_word_sep keep sep w _ (h w (by simp)).1 (h w (by simp)).2 hsep]
      rw [ih fun x hx => h x (List.mem_cons_of_mem w hx)]

theorem toNat_ofNat_valid (n : Nat) (h : Nat.isValidChar n) : (Char.ofNat n).toNat = n := by
  unfold Char.ofNat
  rw [dif_pos h]
  simp [Char.ofNatAux, Char.toNat, UInt32.toNat]

theorem charToUpper_toUpper (c : Char) : c.toUpper.toUpper = c.toUpper := by
  unfold Char.toUpper
  by_cases h : c.toNat ≥ 97 ∧ c.toNat ≤ 122
  · rw [if_pos h]
    have hv : Nat.isValidChar (c.toNat - 32) := by
      unfold Nat.isValidChar
      left; omega
    rw [toNat_ofNat_valid _ hv, if_neg (by omega)]
  · rw [if_neg h, if_neg h]

theorem charToLower_toLower (c : Char) : c.toLower.toLower = c.toLower := by
  unfold Char.toLower
  by_cases h : c.toNat ≥ 65 ∧ c.toNat ≤ 90
  · rw [if_pos h]
    have hv : Nat.isValidChar (c.toNat + 32) := by
      unfold Nat.isValidChar
      left; omega
    rw [toNat_ofNat_valid _ hv, if_neg (by omega)]
  · rw [if_neg h, if_neg h]

theorem isAlphanum_of_lower_range (c : Char) (h : 97 ≤ c.toNat ∧ c.toNat ≤ 122) :
    c.isAlphanum = true := by
  simp [Char.isAlphanum, Char.isAlpha, Char.isLower, Char.isUpper, Char.isDigit, Char.toNat,
    UInt32.le_def, BitVec.le_def, UInt32.toNat] at *
  omega

theorem isAlphanum_toNat_ranges (c : Char) (h : c.isAlphanum = true) :
    (65 ≤ c.toNat ∧ c.toNat ≤ 90) ∨ (97 ≤ c.toNat ∧ c.toNat ≤ 122) ∨
      (48 ≤ c.toNat ∧ c.toNat ≤ 57) := by
  simp [Char.isAlphanum, Char.isAlpha, Char.isLower, Char.isUpper, Char.isDigit, Char.toNat,
    UInt32.le_def, BitVec.le_def, UInt32.toNat] at *
  omega

theorem isAlphanum_of_range (c : Char)
    (h : (65 ≤ c.toNat ∧ c.toNat ≤ 90) ∨ (97 ≤ c.toNat ∧ c.toNat ≤ 122) ∨
      (48 ≤ c.toNat ∧ c.toNat ≤ 57)) : c.isAlphanum = true := by
  simp [Char.isAlphanum, Char.isAlpha, Char.isLower, Char.isUpper, Char.isDigit, Char.toNat,
    UInt32.le_def, BitVec.le_def, UInt32.toNat] at *
  omega

theorem charToLower_isAlphanum (c : Char) (h : c.isAlphanum = true) :
    c.toLower.isAlphanum = true := by
  unfold Char.toLower
  by_cases hc : c.toNat ≥ 65 ∧ c.toNat ≤ 90
  · rw [if_pos hc]
    have hv : Nat.isValidChar (c.toNat + 32) := by
      unfold Nat.isValidChar
      left; omega
    exact isAlphanum_of_lower_range _ (by rw [toNat_ofNat_valid _ hv]; omega)
  · rw [if_neg hc]
    exact h

end TextModifier

namespace TextModifier

theorem collapsed_intercalate (ws : List (List Char))
    (h : ∀ w ∈ ws, w ≠ [] ∧ ∀ c ∈ w, c.isWhitespace = false) :
    collapsedSpaces (List.intercalate [' '] ws) := by
  induction ws with
  | nil =>
    refine ⟨?_, ?_, ?_⟩ <;> simp [List.intercalate]
  | cons w rest ih =>
    obtain ⟨hne, hall⟩ := h w (by simp)
    cases rest with
    | nil =>
      rw [intercalate_singleton]
      refine ⟨?_, ?_, ?_⟩
      · intro c hc; exact hall c (List.mem_of_mem_head? hc)
      · intro c hc; exact hall c (List.mem_of_mem_getLast? hc)
      · exact (List.pairwise_of_forall_mem_list fun a ha _ _ => Or.inl (hall a ha)).chain'
    | cons w2 rest2 =>
      rw [intercalate_cons_cons]
      have ih2 := ih fun x hx => h x (List.mem_cons_of_mem w hx)
      have hl' : List.intercalate [' '] (w2 :: rest2) ≠ [] :=
        intercalate_cons_ne_nil _ _ _ (h w2 (by simp)).1
      obtain ⟨ihh, ihl, ihc⟩ := ih2
      refine ⟨?_, ?_, ?_⟩
      · rw [List.head?_append_of_ne_nil w hne]
        intro c hc; exact hall c (List.mem_of_mem_head? hc)
      · rw [List.getLast?_append]
        obtain ⟨y, hy⟩ := Option.isSome_iff_exists.mp (List.getLast?_isSome.mpr hl')
        have : (' ' :: List.intercalate [' '] (w2 :: rest2)).getLast? = some y := by
          rw [List.getLast?_cons, hy]; rfl
        rw [this]
        intro c hc
        have hcy : y = c := by simpa using hc
        subst hcy
        exact ihl y (by rw [hy]; rfl)
      · rw [List.chain'_append]
        refine ⟨(List.pairwise_of_forall_mem_list fun a ha _ _ => Or.inl (hall a ha)).chain', ?_, ?_⟩
        · rw [List.chain'_cons']
          refine ⟨?_, ihc⟩
          intro y hy
          exact Or.inr (ihh y hy)
        · intro x hx y hy
          have : ' ' = y := by simpa using hy
          exact Or.inl (hall x (List.mem_of_mem_getLast? hx))

end TextModifier

namespace TextModifier

theorem intercalate_cons_eq_append {α : Type} (sep : List α) (x : List α) (ls : List (List α)) :
    List.intercalate sep (x :: ls) = x ++ (ls.map (sep ++ ·)).flatten := by
  induction ls generalizing x with
  | nil => simp [List.intercalate]
  | cons y ys ih =>
    rw [List.intercalate, List.intersperse_cons_cons, List.flatten_cons, List.flatten_cons]
    have := ih y
    rw [List.intercalate] at this
    rw [this]
    simp [List.append_assoc]

theorem intercalate_go_data (s : String) (as : List String) :
    ∀ acc : String, (String.intercalate.go acc s as).data =
      acc.data ++ (as.map (fun x => s.data ++ x.data)).flatten := by
  induction as with
  | nil => intro acc; simp [String.intercalate.go]
  | cons a as ih =>
    intro acc
    rw [String.intercalate.go, ih]
    simp [String.data_append, List.append_assoc]

theorem string_intercalate_data (s : String) (xs : List String) :
    (String.intercalate s xs).data = List.intercalate s.data (xs.map String.data) := by
  cases xs with
  | nil => rfl
  | cons a as =>
    rw [String.intercalate, intercalate_go_data, List.map_cons, intercalate_cons_eq_append,
      List.map_map]
    rfl

end TextModifier

namespace TextModifier

/-- C2: round-trip of the operation registry — for every kind `k`,
`from_str (to_str k) = ok k`; and whenever `from_str` accepts a name `s`,
`to_str` of the parsed kind is exactly the lower-casing of `s`, the
original canonical lowercase name. -/
theorem registry_roundtrip :
    (∀ k : Operation, Operation.from_str k.to_str = .ok k) ∧
    (∀ (s : String) (k : Operation), Operation.from_str s = .ok k →
      k.to_str = strToLowercase s) := by
  constructor
  · intro k; cases k <;> rfl
  · intro s k h
    unfold Operation.from_str at h
    split at h <;> first
      | (injection h with h
         subst h
         simp_all [Operation.to_str])
      | simp_all

/-- C2 witness: the round-trip at the concrete mixed-casing name
`UpPerCase`. -/
theorem registry_roundtrip_witness :
    Operation.to_str Operation.UpperCase = strToLowercase "UpPerCase" :=
  registry_roundtrip.2 "UpPerCase" Operation.UpperCase rfl

/-- C5: every name whose lower-casing is not a canonical operation name is
rejected by `from_str`, and the error message embeds the offending name
verbatim (it is literally a prefix followed by the name). -/
theorem unknown_name_rejected (s : String) (h : strToLowercase s ∉ canonicalNames) :
    Operation.from_str s = .error ("Invalid operation: " ++ s) ∧
    ∃ pre suf, "Invalid operation: " ++ s = pre ++ s ++ suf := by
  refine ⟨?_, "Invalid operation: ", "", by simp⟩
  unfold Operation.from_str
  split
  all_goals first
    | rfl
    | (exfalso; apply h; simp_all [canonicalNames])

/-- C5 witness: the unknown name `bogus` is rejected with the message
embedding it verbatim. -/
theorem unknown_name_rejected_witness :
    Operation.from_str "bogus" = .error ("Invalid operation: " ++ "bogus") ∧
    ∃ pre suf, "Invalid operation: " ++ "bogus" = pre ++ "bogus" ++ suf :=
  unknown_name_rejected "bogus" (by decide)

/-- C4: for every operation kind other than Csv and every input string and
file system, `process_operation` succeeds. -/
theorem non_csv_total (fs : String → Option String) (op : Operation) (input : String)
    (h : op ≠ Operation.Csv) :
    ∃ r, process_operation fs op input = .ok r := by
  cases op
  case Csv => exact absurd rfl h
  all_goals exact ⟨_, rfl⟩

/-- C4 witness: the UpperCase operation succeeds on a concrete input under
an empty file system. -/
theorem non_csv_total_witness :
    ∃ r, process_operation (fun _ => none) Operation.UpperCase "hello" = .ok r :=
  non_csv_total (fun _ => none) Operation.UpperCase "hello" (by decide)

/-- C10: for every operation kind other than Csv, execution is
deterministic and insensitive to the environment — the result does not
depend on the file system at all, so two invocations with the same kind
and input agree. -/
theorem non_csv_deterministic (fs₁ fs₂ : String → Option String) (op : Operation)
    (input : String) (h : op ≠ Operation.Csv) :
    process_operation fs₁ op input = process_operation fs₂ op input := by
  cases op
  case Csv => exact absurd rfl h
  all_goals rfl

/-- C10 witness: the Slugify operation yields the same result under two
different file systems. -/
theorem non_csv_deterministic_witness :
    process_operation (fun _ => none) Operation.Slugify "Hello, World!" =
      process_operation (fun p => some p) Operation.Slugify "Hello, World!" :=
  non_csv_deterministic (fun _ => none) (fun p => some p) Operation.Slugify
    "Hello, World!" (by decide)

end TextModifier

namespace TextModifier

/-- C3: executing the Csv operation on a file whose parsed header row has
zero fields fails with the message `CSV has no headers`, and on a file
with a non-empty header row but zero data rows after it fails with the
message `CSV has no data rows`. -/
theorem csv_structural_errors (fs : String → Option String) (p t : String)
    (hfs : fs p = some t) :
    ((parseCsvRows t).headD [] = [] →
      process_operation fs Operation.Csv p = .error "CSV has no headers") ∧
    ((parseCsvRows t).headD [] ≠ [] → (parseCsvRows t).tail = [] →
      process_operation fs Operation.Csv p = .error "CSV has no data rows") := by
  constructor
  · intro hh
    show process_csv fs p = _
    unfold process_csv
    rw [hfs]
    unfold renderCsvText
    rw [List.headD_eq_head?_getD] at hh
    simp [hh]
  · intro hh hr
    show process_csv fs p = _
    unfold process_csv
    rw [hfs]
    unfold renderCsvText
    rw [List.headD_eq_head?_getD] at hh
    simp [hh, hr, List.isEmpty_iff]

/-- C3 witness: an empty file yields the no-headers error, and a file
holding only the header line `name,age` yields the no-data-rows error. -/
theorem csv_structural_errors_witness :
    ((parseCsvRows "").headD [] = [] ∧
      process_operation (fun _ => some "") Operation.Csv "f.csv" =
        .error "CSV has no headers") ∧
    ((parseCsvRows "name,age").headD [] ≠ [] ∧ (parseCsvRows "name,age").tail = [] ∧
      process_operation (fun _ => some "name,age") Operation.Csv "f.csv" =
        .error "CSV has no data rows") :=
  ⟨⟨by decide,
    (csv_structural_errors (fun _ => some "") "f.csv" "" rfl).1 (by decide)⟩,
   ⟨by decide, by decide,
    (csv_structural_errors (fun _ => some "name,age") "f.csv" "name,age" rfl).2
      (by decide) (by decide)⟩⟩

end TextModifier

namespace TextModifier

/-- C1 counterexample: it is not the case that the Csv operation treats
the input payload itself as CSV text — with an empty file system, the
payload `name,age\nAnn,30\n` (perfectly valid CSV text) makes the
operation fail (file not found) while parsing the payload as CSV text
succeeds. -/
theorem csv_payload_counterexample :
    ¬ (∀ (fs : String → Option String) (p : String),
        process_operation fs Operation.Csv p = renderCsvText p) := fun h =>
  Except.noConfusion (h (fun _ => none) "name,age\nAnn,30\n")

/-- C1 amended: the Csv operation treats the input payload as the path of
a file; when the file system yields contents `t` for that path, the
result is exactly the CSV parse-and-render of `t` per the rules of
section 4.3 — and the contents `name,age` then `Ann,30` then an empty
line render as a two-column table with one data row. -/
theorem csv_operation_reads_file :
    (∀ (fs : String → Option String) (p t : String), fs p = some t →
      process_operation fs Operation.Csv p = renderCsvText t) ∧
    renderCsvText "name,age\nAnn,30\n" =
      .ok (CsvTable.render ⟨["name", "age"], [["Ann", "30"]]⟩) := by
  constructor
  · intro fs p t hfs
    show process_csv fs p = _
    unfold process_csv
    rw [hfs]
  · rfl

/-- C1 witness: the amended claim applied to a concrete one-file file
system. -/
theorem csv_operation_reads_file_witness :
    (fun q => if q = "data.csv" then some "name,age\nAnn,30\n" else none) "data.csv" =
      some "name,age\nAnn,30\n" ∧
    process_operation (fun q => if q = "data.csv" then some "name,age\nAnn,30\n" else none)
      Operation.Csv "data.csv" = renderCsvText "name,age\nAnn,30\n" :=
  ⟨rfl, csv_operation_reads_file.1
    (fun q => if q = "data.csv" then some "name,age\nAnn,30\n" else none)
    "data.csv" "name,age\nAnn,30\n" rfl⟩

end TextModifier

namespace TextModifier

/-- C6: for every input line with at least two whitespace-separated tokens
whose first token parses as an operation, the producer enqueues a command
whose payload is the tokens after the first rejoined with single spaces;
consequently the payload has collapsed whitespace — no leading or trailing
whitespace and no two adjacent whitespace characters survive. -/
theorem producer_payload (line : String) (op : Operation)
    (h2 : 2 ≤ (split_whitespace line).length)
    (hop : Operation.from_str (strTrim ((split_whitespace line).headD "")) = .ok op) :
    producer_step line =
      .enqueue ⟨op, String.intercalate " " ((split_whitespace line).drop 1)⟩ ∧
    collapsedSpaces (String.intercalate " " ((split_whitespace line).drop 1)).data := by
  have hne : (split_whitespace line).isEmpty = false := by
    cases h : split_whitespace line with
    | nil => rw [h] at h2; simp at h2
    | cons a as => simp
  constructor
  · unfold producer_step
    rw [if_neg (by simp [hne]), if_neg (Nat.not_lt.mpr h2), hop]
  · rw [string_intercalate_data]
    have hsep : (" " : String).data = [' '] := rfl
    rw [hsep]
    apply collapsed_intercalate
    intro w hw
    obtain ⟨x, hx, hxw⟩ := List.mem_map.mp hw
    have hxp : x ∈ split_whitespace line := List.mem_of_mem_drop hx
    obtain ⟨r, hr, hrx⟩ := List.mem_map.mp hxp
    obtain ⟨hrne, hrkeep⟩ := runsBy_mem _ _ r hr
    subst hxw
    subst hrx
    constructor
    · simpa using hrne
    · intro c hc
      have := hrkeep c (by simpa using hc)
      simpa using this

end TextModifier

namespace TextModifier

/-- C6 witness: the producer payload property at the concrete line
`uppercase hello   world` (with an internal multi-space run). -/
theorem producer_payload_witness :
    2 ≤ (split_whitespace "uppercase hello   world").length ∧
    (producer_step "uppercase hello   world" =
      .enqueue ⟨Operation.UpperCase,
        String.intercalate " " ((split_whitespace "uppercase hello   world").drop 1)⟩ ∧
     collapsedSpaces (String.intercalate " "
       ((split_whitespace "uppercase hello   world").drop 1)).data) :=
  ⟨by decide, producer_payload "uppercase hello   world" Operation.UpperCase (by decide) rfl⟩

end TextModifier

namespace TextModifier

/-- C7: the uppercase, lowercase, no-spaces and slugify transformations
are idempotent — applying any of them twice equals applying it once. -/
theorem transforms_idempotent :
    (∀ s, strToUppercase (strToUppercase s) = strToUppercase s) ∧
    (∀ s, strToLowercase (strToLowercase s) = strToLowercase s) ∧
    (∀ s, removeSpaces (removeSpaces s) = removeSpaces s) ∧
    (∀ s, slugify (slugify s) = slugify s) := by
  refine ⟨?_, ?_, ?_, ?_⟩
  · intro s
    show (⟨(List.map Char.toUpper s.data).map Char.toUpper⟩ : String) = _
    rw [List.map_map]
    exact congrArg _ (List.map_congr_left fun c _ => charToUpper_toUpper c)
  · intro s
    show (⟨(List.map Char.toLower s.data).map Char.toLower⟩ : String) = _
    rw [List.map_map]
    exact congrArg _ (List.map_congr_left fun c _ => charToLower_toLower c)
  · intro s
    show (⟨(s.data.filter (fun c => c ≠ ' ')).filter (fun c => c ≠ ' ')⟩ : String) = _
    rw [List.filter_filter]
    exact congrArg _ (List.filter_congr fun c _ => by simp)
  · intro s
    have hsep : Char.isAlphanum '-' = false := by decide
    have hws : ∀ w ∈ (runsBy Char.isAlphanum s.data).map (·.map Char.toLower),
        w ≠ [] ∧ ∀ c ∈ w, Char.isAlphanum c = true := by
      intro w hw
      obtain ⟨r, hr, hrw⟩ := List.mem_map.mp hw
      obtain ⟨hrne, hrkeep⟩ := runsBy_mem Char.isAlphanum s.data r hr
      subst hrw
      constructor
      · simpa using hrne
      · intro c hc
        obtain ⟨c0, hc0, hcc⟩ := List.mem_map.mp hc
        subst hcc
        exact charToLower_isAlphanum c0 (hrkeep c0 hc0)
    show (⟨List.intercalate ['-']
        ((runsBy Char.isAlphanum (List.intercalate ['-']
          ((runsBy Char.isAlphanum s.data).map (·.map Char.toLower)))).map
            (·.map Char.toLower))⟩ : String) = _
    rw [runsBy_intercalate Char.isAlphanum '-' _ hsep hws]
    have : ((runsBy Char.isAlphanum s.data).map (·.map Char.toLower)).map
        (·.map Char.toLower) = (runsBy Char.isAlphanum s.data).map (·.map Char.toLower) := by
      rw [List.map_map]
      exact List.map_congr_left fun r _ => by
        show (r.map Char.toLower).map Char.toLower = r.map Char.toLower
        rw [List.map_map]
        exact List.map_congr_left fun c _ => charToLower_toLower c
    rw [this]
    rfl

end TextModifier

namespace TextModifier

theorem notMem_intercalate {α : Type} (x s : α) (ls : List (List α)) (hxs : x ≠ s)
    (h : ∀ l ∈ ls, x ∉ l) : x ∉ List.intercalate [s] ls := by
  induction ls with
  | nil => simp [List.intercalate]
  | cons w rest ih =>
    cases rest with
    | nil =>
      rw [intercalate_singleton]
      exact h w (by simp)
    | cons w2 rest2 =>
      rw [intercalate_cons_cons]
      intro hmem
      rcases List.mem_append.mp hmem with hm | hm
      · exact h w (by simp) hm
      · rcases List.mem_cons.mp hm with hm2 | hm2
        · exact hxs hm2
        · exact ih (fun l hl => h l (List.mem_cons_of_mem w hl)) hm2

/-- C8: rendering a parsed table produces the header line followed by
exactly one line per data row (splitting the rendered text back on the
line separator recovers exactly those lines), and a row with fewer fields
than the header renders only its available cells — splitting its line on
the cell separator recovers exactly the row's own fields, no invented
padding.  Fields are assumed free of the separator characters. -/
theorem render_table_lines (t : CsvTable)
    (hnl : ∀ r ∈ t.headers :: t.records, ∀ f ∈ r, ('\n') ∉ f.data)
    (hsep : ∀ r ∈ t.headers :: t.records, ∀ f ∈ r, ('|') ∉ f.data) :
    t.render.data.splitOn '\n' = t.renderLines.map String.data ∧
    (t.render.data.splitOn '\n').length = t.records.length + 1 ∧
    ∀ r ∈ t.records, r ≠ [] → (renderRow r).data.splitOn '|' = r.map String.data := by
  have hlines : t.render.data.splitOn '\n' = t.renderLines.map String.data := by
    show (List.intercalate ['\n'] (t.renderLines.map String.data)).splitOn '\n' = _
    apply List.splitOn_intercalate
    · intro l hl
      obtain ⟨line, hline, hld⟩ := List.mem_map.mp hl
      subst hld
      rcases List.mem_cons.mp hline with hh | hh
      · subst hh
        apply notMem_intercalate _ _ _ (by decide)
        intro f hf
        obtain ⟨f0, hf0, hff⟩ := List.mem_map.mp hf
        subst hff
        exact hnl t.headers (by simp) f0 hf0
      · obtain ⟨row, hrow, hrl⟩ := List.mem_map.mp hh
        subst hrl
        apply notMem_intercalate _ _ _ (by decide)
        intro f hf
        obtain ⟨f0, hf0, hff⟩ := List.mem_map.mp hf
        subst hff
        exact hnl row (List.mem_cons_of_mem _ hrow) f0 hf0
    · simp [CsvTable.renderLines]
  refine ⟨hlines, ?_, ?_⟩
  · rw [hlines]
    simp [CsvTable.renderLines]
  · intro r hr hrne
    show (List.intercalate ['|'] (r.map String.data)).splitOn '|' = _
    apply List.splitOn_intercalate
    · intro l hl
      obtain ⟨f0, hf0, hff⟩ := List.mem_map.mp hl
      subst hff
      exact hsep r (List.mem_cons_of_mem _ hr) f0 hf0
    · simp [hrne]

/-- C8 witness: the concrete table from the spec scenario — headers
`a`,`b` and rows `1`,`2` and the single-field row `3`. -/
theorem render_table_lines_witness :
    (∀ r ∈ (["a", "b"] : List String) :: ([[("1" : String), "2"], ["3"]]),
      ∀ f ∈ r, ('\n') ∉ f.data) ∧
    ((CsvTable.render ⟨["a", "b"], [["1", "2"], ["3"]]⟩).data.splitOn '\n' =
      (CsvTable.renderLines ⟨["a", "b"], [["1", "2"], ["3"]]⟩).map String.data ∧
    ((CsvTable.render ⟨["a", "b"], [["1", "2"], ["3"]]⟩).data.splitOn '\n').length =
      ([[("1" : String), "2"], ["3"]]).length + 1 ∧
    ∀ r ∈ ([[("1" : String), "2"], ["3"]]), r ≠ [] →
      (renderRow r).data.splitOn '|' = r.map String.data) :=
  ⟨by decide, render_table_lines ⟨["a", "b"], [["1", "2"], ["3"]]⟩ (by decide) (by decide)⟩

end TextModifier

namespace TextModifier

theorem pipeline_invariant (s s2 : PipelineState) (h : PReaches s s2) :
    s2.processed ++ s2.chan ++ commandsOf s2.pending =
      s.processed ++ s.chan ++ commandsOf s.pending := by
  induction h with
  | refl => rfl
  | tail h1 hstep ih =>
    rw [← ih]
    cases hstep with
    | read line rest chan processed d =>
      show processed ++ (chan ++ (enqueuedOf line).toList) ++ commandsOf rest =
        processed ++ chan ++ commandsOf (line :: rest)
      simp only [commandsOf, List.filterMap_cons]
      cases he : enqueuedOf line with
      | none => simp
      | some c => simp
    | finish chan processed => rfl
    | recv pending c chan processed d =>
      show (processed ++ [c]) ++ chan ++ commandsOf pending =
        processed ++ (c :: chan) ++ commandsOf pending
      simp

/-- C9: FIFO delivery through the command channel — in any interleaved
run of the pipeline that starts on a list of input lines and ends with
the input exhausted and the channel drained, the consumer has received
exactly the commands the producer enqueued, in exactly the order the
lines arrived. -/
theorem pipeline_fifo (lines : List String) (s : PipelineState)
    (h : PReaches (initState lines) s) (hp : s.pending = []) (hc : s.chan = []) :
    s.processed = commandsOf lines := by
  have hinv := pipeline_invariant (initState lines) s h
  rw [hp, hc] at hinv
  simp [commandsOf, initState] at hinv
  exact hinv

/-- C9 witness: a concrete three-step run — the producer reads the line
`uppercase hi` and enqueues its command, reaches end of input, and the
consumer drains the channel; the processed sequence is exactly the
produced one. -/
theorem pipeline_fifo_witness :
    (⟨[], [], [⟨Operation.UpperCase, "hi"⟩], true⟩ : PipelineState).processed =
      commandsOf ["uppercase hi"] :=
  pipeline_fifo ["uppercase hi"] ⟨[], [], [⟨Operation.UpperCase, "hi"⟩], true⟩
    (Relation.ReflTransGen.head (PStep.read "uppercase hi" [] [] [] false)
      (Relation.ReflTransGen.head (PStep.finish _ _)
        (Relation.ReflTransGen.head (PStep.recv [] ⟨Operation.UpperCase, "hi"⟩ [] [] true)
          Relation.ReflTransGen.refl)))
    rfl rfl

end TextModifier
